import Mathlib

/-!
Verification of the SysGuard stepwise simulation engines: the Banker's
safety algorithm view, the Round-Robin scheduling view, the deadlock
(resource-allocation-graph) view, and the application shell, shallowly
embedded from the Python sources.
-/

set_option maxHeartbeats 1000000

namespace SysGuard

/-! ### Banker's algorithm state (bankers_view.py, run_algorithm / iterator / execute_process) -/

/-- The mutable algorithm state of the Banker's safety loop: `work` (single
resource dimension, as in the source where every vector is `[x]`),
`finish`, and the accumulated `safe_sequence`. -/
structure BAlg where
  work : Nat
  finish : List Bool
  safeSeq : List Nat
deriving DecidableEq, Repr

/-- The scan predicate of `iterator`: `not finish[i] and self.need[i][0] <= work[0]`. -/
def bankersPred (need : List Nat) (work : Nat) (finish : List Bool) (i : Nat) : Bool :=
  !(finish.getD i true) && decide (need.getD i 0 ≤ work)

/-- The `for i in range(self.num_processes)` scan of `iterator`: the first
index `i` with `finish[i]` false and `need[i] <= work`, if any. -/
def findFirstIdx (n : Nat) (need : List Nat) (work : Nat) (finish : List Bool) : Option Nat :=
  (List.range n).find? (bankersPred need work finish)

/-- The commit effect of `execute_process`: `work[0] += allocation[i][0]`,
`finish[i] = True`, `safe_sequence.append(i)`. -/
def commitStep (alloc : List Nat) (st : BAlg) (i : Nat) : BAlg :=
  { work := st.work + alloc.getD i 0
    finish := st.finish.set i true
    safeSeq := st.safeSeq ++ [i] }

/-- Terminal outcome of the unpaused safety loop.  `stalled` models the
fall-through of `iterator` where nothing is found, all `finish` are true,
yet `len(safe_sequence) != num_processes`: no message and no reschedule. -/
inductive BOutcome where
  | safe (seq : List Nat)
  | notSafe
  | stalled
deriving DecidableEq, Repr

/-- The unpaused safety loop (`iterator` then `execute_process`, repeatedly),
with explicit fuel; the second component counts commit steps. -/
def loopFuel (n : Nat) (need alloc : List Nat) : Nat → BAlg → Option (BOutcome × Nat)
  | 0, _ => none
  | fuel + 1, st =>
    if st.safeSeq.length = n then some (.safe st.safeSeq, 0)
    else
      match findFirstIdx n need st.work st.finish with
      | some i => (loopFuel n need alloc fuel (commitStep alloc st i)).map (fun r => (r.1, r.2 + 1))
      | none => if st.finish.all (fun b => b) then some (.stalled, 0) else some (.notSafe, 0)

/-- A process index qualifying for selection in the scan of `iterator`. -/
def Qual (need : List Nat) (work : Nat) (finish : List Bool) (i : Nat) : Prop :=
  finish.getD i true = false ∧ need.getD i 0 ≤ work

instance (need : List Nat) (work : Nat) (finish : List Bool) (i : Nat) :
    Decidable (Qual need work finish i) := by
  unfold Qual; infer_instance

/-- Invariant of the Banker's safety loop relating `finish` and
`safe_sequence`, maintained by every commit of the unpaused run. -/
structure BInv (n : Nat) (st : BAlg) : Prop where
  flen : st.finish.length = n
  seqLt : ∀ i ∈ st.safeSeq, i < n
  seqFin : ∀ i ∈ st.safeSeq, st.finish.getD i true = true
  nodup : st.safeSeq.Nodup
  countTrue : st.finish.count true = st.safeSeq.length

/-! ### Banker's event machine: scheduled callbacks, pause flag, snapshots -/

/-- A scheduled callback of the Banker's view: `iterator` or
`execute_process i` (the argument bound by `self.after`). -/
inductive BJob where
  | iter
  | exec (i : Nat)
deriving DecidableEq, Repr

/-- Rendering snapshots pushed by the Banker's view: the orange
"Checking ... Executing" highlight, the green "finished" highlight, and the
two terminal reports. -/
inductive BSnap where
  | checking (i : Nat)
  | finishedSnap (i : Nat)
  | safeSnap (seq : List Nat)
  | notSafeSnap
deriving DecidableEq, Repr

/-- Configuration of the Banker's view between callbacks: algorithm state,
the `is_paused` flag, the queue of pending `after` callbacks (oldest
first), and the emitted snapshots. -/
structure BCfg where
  alg : BAlg
  paused : Bool
  pending : List BJob
  emitted : List BSnap
deriving DecidableEq, Repr

/-- Body of one callback, entered with the pause flag already checked false
by the caller.  `iter` mirrors `iterator`: terminal SAFE check, then the
scan (emitting the highlight and scheduling `execute_process i`), then the
UNSAFE report guarded by `not all(finish)`.  `exec i` mirrors
`execute_process`: commit, emit, schedule `iterator`. -/
def bankersRunJob (n : Nat) (need alloc : List Nat) (c : BCfg) : BJob → BCfg
  | .iter =>
    if c.alg.safeSeq.length = n then
      { c with emitted := c.emitted ++ [.safeSnap c.alg.safeSeq] }
    else
      match findFirstIdx n need c.alg.work c.alg.finish with
      | some i =>
        { c with emitted := c.emitted ++ [.checking i], pending := c.pending ++ [.exec i] }
      | none =>
        if c.alg.finish.all (fun b => b) then c
        else { c with emitted := c.emitted ++ [.notSafeSnap] }
  | .exec i =>
    { c with alg := commitStep alloc c.alg i
             emitted := c.emitted ++ [.finishedSnap i]
             pending := c.pending ++ [.iter] }

/-- External events: the oldest pending timer fires, or the user presses
the pause/resume button (`toggle_pause`). -/
inductive BAct where
  | fire
  | toggle
deriving DecidableEq, Repr

/-- One event.  A firing callback first checks `is_paused` and returns
without effect when set (the job is consumed either way).  `toggle_pause`
flips the flag and, on resume, re-invokes `iterator` directly. -/
def bankersStepAct (n : Nat) (need alloc : List Nat) (c : BCfg) : BAct → BCfg
  | .fire =>
    match c.pending with
    | [] => c
    | j :: rest =>
      let c1 := { c with pending := rest }
      if c.paused then c1 else bankersRunJob n need alloc c1 j
  | .toggle =>
    if c.paused then bankersRunJob n need alloc { c with paused := false } .iter
    else { c with paused := true }

/-- Run a list of events. -/
def bankersRunActs (n : Nat) (need alloc : List Nat) (c : BCfg) : List BAct → BCfg
  | [] => c
  | a :: rest => bankersRunActs n need alloc (bankersStepAct n need alloc c a) rest

/-- Initial algorithm state built by `run_algorithm`: `work = available`,
`finish = [False] * num_processes`, empty safe sequence. -/
def bankersInitAlg (n : Nat) (work : Nat) : BAlg :=
  ⟨work, List.replicate n false, []⟩

/-- `run_algorithm`: build the initial state and invoke `iterator` once. -/
def bankersStart (n : Nat) (need alloc : List Nat) (work : Nat) : BCfg :=
  bankersRunJob n need alloc ⟨bankersInitAlg n work, false, [], []⟩ .iter

/-! ### Round-Robin scheduler (scheduling_view.py) -/

/-- One Gantt bar: `{"id": ..., "start": timer - time_slice + 1, "duration": time_slice}`.
Processes are identified by their index in the process table. -/
structure Segment where
  pid : Nat
  start : Int
  duration : Nat
deriving DecidableEq, Repr

/-- `self.quantum = 2`. -/
def quantum : Nat := 2

/-- Scheduler state: per-process remaining burst (indexed), the ready
queue of indices, the CPU occupant, the running slice counter, the global
timer, and the Gantt history. -/
structure SchedState where
  remaining : List Int
  ready : List Nat
  current : Option Nat
  timeSlice : Nat
  timer : Nat
  gantt : List Segment
deriving DecidableEq, Repr

/-- One invocation of `tick` (the pause guard is handled by the event
machine): decrement the CPU occupant and advance its slice, close its
segment on completion or quantum expiry (requeueing on expiry), then
dispatch the head of the ready queue into an empty CPU, then `timer += 1`. -/
def tick (s : SchedState) : SchedState :=
  let s1 :=
    match s.current with
    | some i =>
      let rem := s.remaining.getD i 0 - 1
      let slice := s.timeSlice + 1
      let base := { s with remaining := s.remaining.set i rem, timeSlice := slice }
      let seg : Segment := ⟨i, (s.timer : Int) - (slice : Int) + 1, slice⟩
      if rem = 0 then
        { base with gantt := base.gantt ++ [seg], current := none, timeSlice := 0 }
      else if slice = quantum then
        { base with gantt := base.gantt ++ [seg], ready := base.ready ++ [i],
                    current := none, timeSlice := 0 }
      else base
    | none => s
  let s2 :=
    match s1.current, s1.ready with
    | none, j :: rest => { s1 with current := some j, ready := rest }
    | _, _ => s1
  { s2 with timer := s2.timer + 1 }

/-- The reschedule test at the end of `tick`:
`any(p["remaining"] > 0 for p in self.processes) or self.ready_queue or self.current_process`. -/
def schedContinueB (s : SchedState) : Bool :=
  s.remaining.any (fun r => decide (0 < r)) || !s.ready.isEmpty || !s.current.isNone

/-- The halt condition first holds when the reschedule test fails. -/
def schedHalted (s : SchedState) : Prop :=
  schedContinueB s = false

instance (s : SchedState) : Decidable (schedHalted s) := by
  unfold schedHalted; infer_instance

/-- `setup_simulation` outcome for given simulated bursts: every process
has `remaining = burst`, the ready queue holds all processes in order,
CPU empty, timer 0, no Gantt data. -/
def initSched (bursts : List Int) : SchedState :=
  { remaining := bursts
    ready := List.range bursts.length
    current := none
    timeSlice := 0
    timer := 0
    gantt := [] }

/-- Iterate a step function. -/
def iterN {σ : Type} (f : σ → σ) : Nat → σ → σ
  | 0, s => s
  | k + 1, s => iterN f k (f s)

/-- Total duration of the segments of process `i` in a Gantt list. -/
def ganttSumL (g : List Segment) (i : Nat) : Nat :=
  ((g.filter (fun seg => decide (seg.pid = i))).map Segment.duration).sum

/-- Total Gantt duration recorded for process `i`. -/
def ganttSum (s : SchedState) (i : Nat) : Nat :=
  ganttSumL s.gantt i

/-- The slice currently accumulated against process `i` (zero unless it
occupies the CPU). -/
def curSlice (s : SchedState) (i : Nat) : Int :=
  match s.current with
  | some j => if j = i then (s.timeSlice : Int) else 0
  | none => 0

/-- End boundary of a Gantt list whose first segment is expected to start
at `e`: `e` itself when empty, else the last segment's `start + duration`. -/
def ganttEndFrom (e : Int) : List Segment → Int
  | [] => e
  | seg :: rest => ganttEndFrom (seg.start + (seg.duration : Int)) rest

/-- The segment list is exactly contiguous starting at `e`: the first
segment starts at `e` and every later segment starts where its
predecessor ended. -/
def GanttChain : Int → List Segment → Prop
  | _, [] => True
  | e, seg :: rest => seg.start = e ∧ GanttChain (seg.start + (seg.duration : Int)) rest

instance ganttChainDec : (e : Int) → (l : List Segment) → Decidable (GanttChain e l)
  | _, [] => isTrue trivial
  | e, seg :: rest =>
    match ganttChainDec (seg.start + (seg.duration : Int)) rest with
    | isTrue h =>
      if he : seg.start = e then isTrue ⟨he, h⟩ else isFalse fun hc => he hc.1
    | isFalse h => isFalse fun hc => h hc.2

/-- Invariant of the Round-Robin simulation, maintained by every `tick`:
per-process accounting (recorded Gantt time plus the running slice plus the
remaining burst equals the original burst), positivity of the remaining
bursts of queued and running processes, a zeroed slice when the CPU is
idle, distinctness of the queue and CPU occupants, exact contiguity of the
Gantt history starting at tick 1, and the timer/Gantt linkage. -/
structure SInv (bursts : List Int) (s : SchedState) : Prop where
  rlen : s.remaining.length = bursts.length
  acc : ∀ i, i < bursts.length →
    (ganttSum s i : Int) + curSlice s i + s.remaining.getD i 0 = bursts.getD i 0
  readyLt : ∀ i ∈ s.ready, i < bursts.length
  readyPos : ∀ i ∈ s.ready, 1 ≤ s.remaining.getD i 0
  curLt : ∀ i, s.current = some i → i < bursts.length
  curPos : ∀ i, s.current = some i → 1 ≤ s.remaining.getD i 0
  nonneg : ∀ i, i < bursts.length → 0 ≤ s.remaining.getD i 0
  slice0 : s.current = none → s.timeSlice = 0
  nodupReady : s.ready.Nodup
  curNotInReady : ∀ i, s.current = some i → i ∉ s.ready
  chain : GanttChain 1 s.gantt
  link : ∀ i, s.current = some i →
    (s.timer : Int) = ganttEndFrom 1 s.gantt + (s.timeSlice : Int)
  idleLink : s.current = none → s.ready ≠ [] →
    (s.timer : Int) + 1 = ganttEndFrom 1 s.gantt

/-- The gap property asserted by the claim under scrutiny: every later
segment starts at least one tick after its predecessor ended. -/
def SegsGapped : List Segment → Prop
  | seg1 :: seg2 :: rest =>
    seg1.start + (seg1.duration : Int) + 1 ≤ seg2.start ∧ SegsGapped (seg2 :: rest)
  | _ => True

instance segsGappedDec : (l : List Segment) → Decidable (SegsGapped l)
  | [] => isTrue trivial
  | [_] => isTrue trivial
  | seg1 :: seg2 :: rest =>
    match segsGappedDec (seg2 :: rest) with
    | isTrue h =>
      if he : seg1.start + (seg1.duration : Int) + 1 ≤ seg2.start then isTrue ⟨he, h⟩
      else isFalse fun hc => he hc.1
    | isFalse h => isFalse fun hc => h hc.2

/-! ### Generic pausable callback machine (the shared `after`-driven engine) -/

/-- Configuration of a view's animation engine between callbacks: the
simulation state, the `is_paused` flag, the number of pending scheduled
callbacks (all run the same handler), and the committed state history. -/
structure PCfg (σ : Type) where
  sim : σ
  paused : Bool
  pending : Nat
  hist : List σ
deriving Repr

/-- External events of the engine: a pending timer fires, or the user
presses pause/resume. -/
inductive PAct where
  | fire
  | toggle
deriving DecidableEq, Repr

/-- One handler invocation (`animate_step` / `tick`): if paused, return
with no effect; otherwise `stepF` yields the committed successor state and
whether another callback is scheduled, or `none` for the no-progress
branch that neither mutates nor reschedules. -/
def pBody {σ : Type} (stepF : σ → Option (σ × Bool)) (c : PCfg σ) : PCfg σ :=
  if c.paused then c
  else
    match stepF c.sim with
    | none => c
    | some (s1, r) =>
      { sim := s1
        paused := c.paused
        pending := c.pending + (if r then 1 else 0)
        hist := c.hist ++ [s1] }

/-- One event: a fire consumes one pending callback and runs the handler;
`toggle_pause` flips the flag and on resume re-invokes the handler
directly. -/
def pStep {σ : Type} (stepF : σ → Option (σ × Bool)) (c : PCfg σ) : PAct → PCfg σ
  | .fire =>
    match c.pending with
    | 0 => c
    | m + 1 => pBody stepF { c with pending := m }
  | .toggle =>
    if c.paused then pBody stepF { c with paused := false }
    else { c with paused := true }

/-- Starting a run: the handler is invoked once directly on the freshly
initialised state. -/
def pInit {σ : Type} (stepF : σ → Option (σ × Bool)) (s0 : σ) : PCfg σ :=
  pBody stepF { sim := s0, paused := false, pending := 0, hist := [] }

/-- Configurations reachable from the start of a run under any
interleaving of timer firings and pause/resume presses. -/
inductive PReach {σ : Type} (stepF : σ → Option (σ × Bool)) (s0 : σ) : PCfg σ → Prop where
  | init : PReach stepF s0 (pInit stepF s0)
  | step : ∀ c a, PReach stepF s0 c → PReach stepF s0 (pStep stepF c a)

/-- The canonical unpaused history after `k` committed steps. -/
def histN {σ : Type} (f : σ → σ) (s0 : σ) (k : Nat) : List σ :=
  (List.range k).map (fun j => iterN f (j + 1) s0)

/-- The exactness invariant of a pausable engine: the committed state is
some iterate of the canonical step function and the emitted history is
exactly the canonical unpaused history up to it. -/
def PInvariant {σ : Type} (f : σ → σ) (s0 : σ) (c : PCfg σ) : Prop :=
  ∃ k, c.sim = iterN f k s0 ∧ c.hist = histN f s0 k

/-- Deadlock view handler content (`animate_step`): with a script of
length `L`, a call at cursor `c < L` executes step `c`, moves the cursor
on and reschedules; at `c ≥ L` it neither mutates nor reschedules. -/
def stepD (scriptLen : Nat) (c : Nat) : Option (Nat × Bool) :=
  if c < scriptLen then some (c + 1, true) else none

/-- Canonical successor of the deadlock cursor. -/
def nextD (scriptLen : Nat) (c : Nat) : Nat :=
  if c < scriptLen then c + 1 else c

/-- Scheduling view handler content (`tick`): always commits one tick;
reschedules exactly while the continue test holds. -/
def stepS (s : SchedState) : Option (SchedState × Bool) :=
  some (tick s, schedContinueB (tick s))

/-! ### Deadlock view script (deadlock_view.py, run_simulation / animate_step) -/

/-- `_truncate_name`: names longer than `maxLen` characters are cut and
suffixed with an ellipsis. -/
def truncateName (name : String) (maxLen : Nat) : String :=
  if name.length > maxLen then name.take maxLen ++ "..." else name

/-- Animation step variants of the deadlock view script. -/
inductive AnimStep where
  | text (msg : String)
  | drawProcess (name : String)
  | drawResource (name : String)
  | drawAssignEdge (r p : String)
  | drawRequestEdge (p r : String)
  | detectCycle (cycle : List String)
deriving DecidableEq, Repr

/-- The precomputed `self.animation_steps` list, parametrised by the two
full process names, the two resource names, and their display
(truncated) forms. -/
def animationSteps (p1n p2n r1n r2n p1 p2 r1 r2 : String) : List AnimStep :=
  [ .text ("Fetching processes... Found " ++ p1n ++ " and " ++ p2n ++ "."),
    .drawProcess p1,
    .text ("Fetching resources... Found " ++ r1n ++ " (held by " ++ p1n ++ ")."),
    .drawResource r1,
    .text (p1 ++ " acquires and holds " ++ r1 ++ "."),
    .drawAssignEdge r1 p1,
    .text ("Creating process " ++ p2 ++ "..."),
    .drawProcess p2,
    .text ("Fetching resources... Found " ++ r2n ++ " (held by " ++ p2n ++ ")."),
    .drawResource r2,
    .text (p2 ++ " acquires and holds " ++ r2 ++ "."),
    .drawAssignEdge r2 p2,
    .text ("Now, " ++ p1 ++ " requests resource " ++ r2 ++ " (held by " ++ p2 ++ ")..."),
    .drawRequestEdge p1 r2,
    .text ("And " ++ p2 ++ " requests resource " ++ r1 ++ " (held by " ++ p1 ++ ")..."),
    .drawRequestEdge p2 r1,
    .text ("A circular wait is formed! Detecting cycle..."),
    .detectCycle [p1, r2, p2, r1, p1] ]

/-- The script as `run_simulation` builds it: display names are the full
names truncated to 12 characters. -/
def scriptFor (p1n p2n r1n r2n : String) : List AnimStep :=
  animationSteps p1n p2n r1n r2n
    (truncateName p1n 12) (truncateName p2n 12) (truncateName r1n 12) (truncateName r2n 12)

/-- A two-entry Python dict literal `{k1: v1, k2: v2}`: a duplicate key
keeps only the later binding. -/
def pyDict2 {α : Type} (k1 : String) (v1 : α) (k2 : String) (v2 : α) : List (String × α) :=
  if k1 = k2 then [(k2, v2)] else [(k1, v1), (k2, v2)]

/-- Dict lookup by key. -/
def pyLookup {α : Type} (tbl : List (String × α)) (k : String) : Option α :=
  (tbl.find? (fun e => decide (e.1 = k))).map (fun e => e.2)

/-- `self.processes = {p1_display: {'pos': (200, 150)}, p2_display: {'pos': (500, 150)}}`. -/
def processesDict (p1 p2 : String) : List (String × (Nat × Nat)) :=
  pyDict2 p1 (200, 150) p2 (500, 150)

/-- `self.resources = {r1_display: {'pos': (200, 350)}, r2_display: {'pos': (500, 350)}}`. -/
def resourcesDict (r1 r2 : String) : List (String × (Nat × Nat)) :=
  pyDict2 r1 (200, 350) r2 (500, 350)

/-- Outcome of pressing "Run Deadlock Simulation": status message, the
button states, whether the animation chain started, and the script. -/
structure DeadlockRunResult where
  message : String
  runButtonEnabled : Bool
  pauseButtonEnabled : Bool
  started : Bool
  steps : List AnimStep
deriving DecidableEq, Repr

/-- `run_simulation`: with fewer than 2 live processes, surface the
"not enough" message, re-enable Run, disable Pause and return without
starting; otherwise derive resource names (open file or the fallback
placeholders) and start the animation on the precomputed script. -/
def deadlockRunSim (live : List (String × Nat)) (openFile : Nat → Option String) :
    DeadlockRunResult :=
  if live.length < 2 then
    { message := "Not enough running processes to simulate deadlock."
      runButtonEnabled := true
      pauseButtonEnabled := false
      started := false
      steps := [] }
  else
    let p1n := (live.getD 0 ("", 0)).1
    let p1pid := (live.getD 0 ("", 0)).2
    let p2n := (live.getD 1 ("", 0)).1
    let p2pid := (live.getD 1 ("", 0)).2
    let r1n := (openFile p1pid).getD "Resource_A"
    let r2n := (openFile p2pid).getD "Resource_B"
    { message := ""
      runButtonEnabled := false
      pauseButtonEnabled := true
      started := true
      steps := scriptFor p1n p2n r1n r2n }

/-! ### Application shell (main_application.py, App.switch_view) -/

/-- The application state relevant to navigation: the active view, one
view's animation engine (the scheduling view, representative), the
dashboard/prediction history handoff and the files-view reload flag. -/
structure AppState (α : Type) where
  active : String
  schedMach : PCfg SchedState
  dashboardHistory : α
  predictionHistory : α
  filesLoaded : Bool

/-- `switch_view`: hand the dashboard history to the prediction view when
navigating there, reload the files view when navigating there, then raise
the target frame.  No pending animation callback of any view is touched. -/
def switchView {α : Type} (a : AppState α) (viewName : String) : AppState α :=
  let a1 := if viewName = "prediction" then { a with predictionHistory := a.dashboardHistory } else a
  let a2 := if viewName = "files" then { a1 with filesLoaded := true } else a1
  { a2 with active := viewName }

/-! ### General helper lemmas -/

theorem iterN_succ {σ : Type} (f : σ → σ) (k : Nat) (s : σ) :
    iterN f (k + 1) s = f (iterN f k s) := by
  induction k generalizing s with
  | zero => rfl
  | succ k ih =>
    show iterN f (k + 1) (f s) = f (iterN f (k + 1) s)
    rw [ih (f s)]
    rfl

theorem histN_succ {σ : Type} (f : σ → σ) (s0 : σ) (k : Nat) :
    histN f s0 (k + 1) = histN f s0 k ++ [iterN f (k + 1) s0] := by
  unfold histN
  rw [List.range_succ, List.map_append]
  rfl

theorem getD_set_self {α : Type} :
    ∀ (l : List α) (i : Nat) (a d : α), i < l.length → (l.set i a).getD i d = a := by
  intro l
  induction l with
  | nil => intro i a d h; simp at h
  | cons b t ih =>
    intro i a d h
    cases i with
    | zero => rfl
    | succ i => exact ih i a d (by simpa using h)

theorem getD_set_ne {α : Type} :
    ∀ (l : List α) (i j : Nat) (a d : α), i ≠ j → (l.set i a).getD j d = l.getD j d := by
  intro l
  induction l with
  | nil => intro i j a d _; simp [List.set]
  | cons b t ih =>
    intro i j a d hne
    cases i with
    | zero =>
      cases j with
      | zero => exact absurd rfl hne
      | succ j => rfl
    | succ i =>
      cases j with
      | zero => rfl
      | succ j => exact ih i j a d (fun h => hne (by rw [h]))

theorem count_set_true :
    ∀ (l : List Bool) (i : Nat), i < l.length → l.getD i true = false →
      (l.set i true).count false + 1 = l.count false ∧
      (l.set i true).count true = l.count true + 1 := by
  intro l
  induction l with
  | nil => intro i h; simp at h
  | cons b t ih =>
    intro i hi hg
    cases i with
    | zero =>
      have hb : b = false := hg
      subst hb
      constructor <;> simp [List.count_cons]
    | succ i =>
      have ht := ih i (by simpa using hi) (by simpa using hg)
      constructor <;> simp [List.count_cons] <;> omega

theorem mem_of_nodup_lt_length {seq : List Nat} {n : Nat} (hnd : seq.Nodup)
    (hlt : ∀ i ∈ seq, i < n) (hlen : seq.length = n) : ∀ i, i < n → i ∈ seq := by
  intro i hi
  have hsub : seq.toFinset ⊆ Finset.range n := by
    intro x hx
    rw [Finset.mem_range]
    exact hlt x (List.mem_toFinset.mp hx)
  have hcard : (Finset.range n).card ≤ seq.toFinset.card := by
    rw [Finset.card_range, List.toFinset_card_of_nodup hnd, hlen]
  have heq : seq.toFinset = Finset.range n := Finset.eq_of_subset_of_card_le hsub hcard
  exact List.mem_toFinset.mp (heq ▸ Finset.mem_range.mpr hi)

theorem find?_range'_spec (p : Nat → Bool) :
    ∀ (b a i : Nat), (List.range' a b).find? p = some i →
      p i = true ∧ a ≤ i ∧ i < a + b ∧ ∀ j, a ≤ j → j < i → p j = false := by
  intro b
  induction b with
  | zero => intro a i h; simp [List.range'] at h
  | succ b ih =>
    intro a i h
    rw [List.range'_succ] at h
    by_cases hp : p a
    · rw [List.find?_cons_of_pos _ hp] at h
      obtain rfl : a = i := by simpa using h
      exact ⟨hp, Nat.le_refl a, by omega, fun j h1 h2 => absurd (Nat.lt_of_le_of_lt h1 h2) (Nat.lt_irrefl a)⟩
    · rw [List.find?_cons_of_neg _ hp] at h
      obtain ⟨h1, h2, h3, h4⟩ := ih (a + 1) i h
      refine ⟨h1, by omega, by omega, fun j hj1 hj2 => ?_⟩
      rcases Nat.eq_or_lt_of_le hj1 with heq | hlt
      · rw [← heq]; exact Bool.eq_false_iff.mpr hp
      · exact h4 j hlt hj2

theorem find?_range_spec (p : Nat → Bool) (n i : Nat)
    (h : (List.range n).find? p = some i) :
    p i = true ∧ i < n ∧ ∀ j, j < i → p j = false := by
  rw [List.range_eq_range'] at h
  obtain ⟨h1, _, h3, h4⟩ := find?_range'_spec p n 0 i h
  exact ⟨h1, by omega, fun j hj => h4 j (Nat.zero_le j) hj⟩

/-! ### Pausable engine lemmas -/

theorem pBody_inv {σ : Type} (stepF : σ → Option (σ × Bool)) (f : σ → σ)
    (hcompat : ∀ s p, stepF s = some p → p.1 = f s)
    (s0 : σ) (c : PCfg σ) (h : PInvariant f s0 c) :
    PInvariant f s0 (pBody stepF c) := by
  obtain ⟨k, hsim, hhist⟩ := h
  unfold pBody
  cases hp : c.paused with
  | true => simpa [hp] using ⟨k, hsim, hhist⟩
  | false =>
    simp only [hp, Bool.false_eq_true, if_false]
    cases hstep : stepF c.sim with
    | none => exact ⟨k, hsim, hhist⟩
    | some p =>
      obtain ⟨s1, r⟩ := p
      have hs1 : s1 = f (iterN f k s0) := by
        have := hcompat c.sim (s1, r) hstep
        rw [hsim] at this
        exact this
      refine ⟨k + 1, ?_, ?_⟩
      · simpa [iterN_succ] using hs1
      · simp only [histN_succ, hhist, iterN_succ]
        rw [hs1]

theorem pStep_inv {σ : Type} (stepF : σ → Option (σ × Bool)) (f : σ → σ)
    (hcompat : ∀ s p, stepF s = some p → p.1 = f s)
    (s0 : σ) (c : PCfg σ) (a : PAct) (h : PInvariant f s0 c) :
    PInvariant f s0 (pStep stepF c a) := by
  obtain ⟨k, hsim, hhist⟩ := h
  cases a with
  | fire =>
    unfold pStep
    cases hm : c.pending with
    | zero => exact ⟨k, hsim, hhist⟩
    | succ m => exact pBody_inv stepF f hcompat s0 _ ⟨k, hsim, hhist⟩
  | toggle =>
    unfold pStep
    cases hp : c.paused with
    | true =>
      simp only [hp, if_true]
      exact pBody_inv stepF f hcompat s0 _ ⟨k, hsim, hhist⟩
    | false => simpa [hp] using ⟨k, hsim, hhist⟩

theorem preach_inv {σ : Type} (stepF : σ → Option (σ × Bool)) (f : σ → σ)
    (hcompat : ∀ s p, stepF s = some p → p.1 = f s)
    (s0 : σ) (c : PCfg σ) (h : PReach stepF s0 c) : PInvariant f s0 c := by
  induction h with
  | init =>
    exact pBody_inv stepF f hcompat s0 _ ⟨0, rfl, rfl⟩
  | step c a _ ih => exact pStep_inv stepF f hcompat s0 c a ih

theorem stepD_compat (scriptLen : Nat) :
    ∀ (s : Nat) (p : Nat × Bool), stepD scriptLen s = some p → p.1 = nextD scriptLen s := by
  intro s p h
  unfold stepD at h
  unfold nextD
  by_cases hs : s < scriptLen
  · rw [if_pos hs] at h
    rw [if_pos hs]
    injection h with h1
    rw [← h1]
  · rw [if_neg hs] at h
    exact absurd h (by simp)

theorem stepS_compat :
    ∀ (s : SchedState) (p : SchedState × Bool), stepS s = some p → p.1 = tick s := by
  intro s p h
  unfold stepS at h
  cases h
  rfl

/-! ### Scheduler tick case equations -/

theorem tick_idle (s : SchedState) (hc : s.current = none) (hr : s.ready = []) :
    tick s = { s with timer := s.timer + 1 } := by
  simp only [tick, hc, hr]

theorem tick_dispatch (s : SchedState) (j : Nat) (rest : List Nat)
    (hc : s.current = none) (hr : s.ready = j :: rest) :
    tick s = { s with current := some j, ready := rest, timer := s.timer + 1 } := by
  simp only [tick, hc, hr]

theorem tick_run (s : SchedState) (i : Nat) (hc : s.current = some i)
    (h0 : ¬(s.remaining.getD i 0 - 1 = 0)) (hq : ¬(s.timeSlice + 1 = quantum)) :
    tick s = { s with remaining := s.remaining.set i (s.remaining.getD i 0 - 1),
                      timeSlice := s.timeSlice + 1, timer := s.timer + 1 } := by
  simp only [tick, hc, if_neg h0, if_neg hq]

theorem tick_finish_nil (s : SchedState) (i : Nat) (hc : s.current = some i)
    (h0 : s.remaining.getD i 0 - 1 = 0) (hr : s.ready = []) :
    tick s = { s with remaining := s.remaining.set i (s.remaining.getD i 0 - 1),
                      timeSlice := 0, current := none,
                      gantt := s.gantt ++
                        [⟨i, (s.timer : Int) - ((s.timeSlice + 1 : Nat) : Int) + 1, s.timeSlice + 1⟩],
                      timer := s.timer + 1 } := by
  simp only [tick, hc, if_pos h0, hr]

theorem tick_finish_cons (s : SchedState) (i j : Nat) (rest : List Nat)
    (hc : s.current = some i) (h0 : s.remaining.getD i 0 - 1 = 0)
    (hr : s.ready = j :: rest) :
    tick s = { s with remaining := s.remaining.set i (s.remaining.getD i 0 - 1),
                      timeSlice := 0, current := some j, ready := rest,
                      gantt := s.gantt ++
                        [⟨i, (s.timer : Int) - ((s.timeSlice + 1 : Nat) : Int) + 1, s.timeSlice + 1⟩],
                      timer := s.timer + 1 } := by
  simp only [tick, hc, if_pos h0, hr]

theorem tick_quantum_nil (s : SchedState) (i : Nat) (hc : s.current = some i)
    (h0 : ¬(s.remaining.getD i 0 - 1 = 0)) (hq : s.timeSlice + 1 = quantum)
    (hr : s.ready = []) :
    tick s = { s with remaining := s.remaining.set i (s.remaining.getD i 0 - 1),
                      timeSlice := 0, current := some i, ready := [],
                      gantt := s.gantt ++
                        [⟨i, (s.timer : Int) - ((s.timeSlice + 1 : Nat) : Int) + 1, s.timeSlice + 1⟩],
                      timer := s.timer + 1 } := by
  simp only [tick, hc, if_neg h0, if_pos hq, hr, List.nil_append]

theorem tick_quantum_cons (s : SchedState) (i j : Nat) (rest : List Nat)
    (hc : s.current = some i) (h0 : ¬(s.remaining.getD i 0 - 1 = 0))
    (hq : s.timeSlice + 1 = quantum) (hr : s.ready = j :: rest) :
    tick s = { s with remaining := s.remaining.set i (s.remaining.getD i 0 - 1),
                      timeSlice := 0, current := some j, ready := rest ++ [i],
                      gantt := s.gantt ++
                        [⟨i, (s.timer : Int) - ((s.timeSlice + 1 : Nat) : Int) + 1, s.timeSlice + 1⟩],
                      timer := s.timer + 1 } := by
  simp only [tick, hc, if_neg h0, if_pos hq, hr, List.cons_append]

/-! ### Gantt helper lemmas -/

theorem ganttSumL_append (g : List Segment) (p : Nat) (st : Int) (d : Nat) (k : Nat) :
    ganttSumL (g ++ [⟨p, st, d⟩]) k = ganttSumL g k + (if p = k then d else 0) := by
  unfold ganttSumL
  rw [List.filter_append]
  by_cases h : p = k
  · simp [h]
  · simp [h]

theorem ganttEndFrom_append (e : Int) (g : List Segment) (seg : Segment) :
    ganttEndFrom e (g ++ [seg]) = seg.start + (seg.duration : Int) := by
  induction g generalizing e with
  | nil => rfl
  | cons a t ih => exact ih _

theorem ganttChain_append (e : Int) (g : List Segment) (seg : Segment)
    (hc : GanttChain e g) (hs : seg.start = ganttEndFrom e g) :
    GanttChain e (g ++ [seg]) := by
  induction g generalizing e with
  | nil => exact ⟨hs, trivial⟩
  | cons a t ih =>
    obtain ⟨h1, h2⟩ := hc
    exact ⟨h1, ih _ h2 hs⟩

theorem curSlice_of_zero (s : SchedState) (j : Nat) (h : s.timeSlice = 0) :
    curSlice s j = 0 := by
  unfold curSlice
  cases s.current <;> simp [h]


theorem acc_after_close (bursts : List Int) (s : SchedState) (i : Nat)
    (hinv : SInv bursts s) (hc : s.current = some i) (hiLen : i < s.remaining.length) :
    ∀ k, k < bursts.length →
      (ganttSumL (s.gantt ++ [⟨i, (s.timer : Int) - ((s.timeSlice + 1 : Nat) : Int) + 1,
        s.timeSlice + 1⟩]) k : Int) +
        (s.remaining.set i (s.remaining.getD i 0 - 1)).getD k 0 = bursts.getD k 0 := by
  intro k hk
  by_cases hki : k = i
  · subst hki
    rw [ganttSumL_append, getD_set_self _ _ _ _ hiLen, if_pos rfl]
    have hacci := hinv.acc k hk
    have hcsi : curSlice s k = (s.timeSlice : Int) := by simp [curSlice, hc]
    rw [hcsi] at hacci
    unfold ganttSum at hacci
    push_cast
    omega
  · rw [ganttSumL_append, getD_set_ne _ _ _ _ _ (fun h => hki h.symm),
      if_neg (fun h => hki h.symm)]
    have ha := hinv.acc k hk
    have hcs : curSlice s k = 0 := by
      simp only [curSlice, hc]
      rw [if_neg (fun h => hki h.symm)]
    rw [hcs] at ha
    unfold ganttSum at ha
    push_cast
    omega

theorem tick_SInv (bursts : List Int) (s : SchedState) (hinv : SInv bursts s) :
    SInv bursts (tick s) := by
  cases hc : s.current with
  | none =>
    cases hr : s.ready with
    | nil =>
      rw [tick_idle s hc hr]
      refine { hinv with link := ?_, idleLink := ?_ }
      · intro i h
        have h2 : s.current = some i := h
        simp [hc] at h2
      · intro _ hne
        have h2 : s.ready ≠ [] := hne
        exact absurd hr h2
    | cons j rest =>
      rw [tick_dispatch s j rest hc hr]
      have hslice := hinv.slice0 hc
      have hjmem : j ∈ s.ready := by rw [hr]; exact List.mem_cons_self j rest
      have hnd : (j :: rest).Nodup := hr ▸ hinv.nodupReady
      refine { rlen := hinv.rlen, nonneg := hinv.nonneg, chain := hinv.chain,
               acc := ?_, readyLt := ?_, readyPos := ?_, curLt := ?_, curPos := ?_,
               slice0 := ?_, nodupReady := ?_, curNotInReady := ?_, link := ?_, idleLink := ?_ }
      · intro i h
        have ha := hinv.acc i h
        rw [curSlice_of_zero s i hslice] at ha
        have hz : curSlice { s with current := some j, ready := rest, timer := s.timer + 1 } i = 0 := curSlice_of_zero _ i hslice
        rw [hz]
        exact ha
      · intro i hi
        exact hinv.readyLt i (by rw [hr]; exact List.mem_cons_of_mem j hi)
      · intro i hi
        exact hinv.readyPos i (by rw [hr]; exact List.mem_cons_of_mem j hi)
      · intro i h
        injection h with h3
        exact h3 ▸ hinv.readyLt j hjmem
      · intro i h
        injection h with h3
        exact h3 ▸ hinv.readyPos j hjmem
      · intro h
        exact Option.noConfusion h
      · exact (List.nodup_cons.mp hnd).2
      · intro i h
        injection h with h3
        exact h3 ▸ (List.nodup_cons.mp hnd).1
      · intro i h
        have hidle := hinv.idleLink hc (by rw [hr]; simp)
        rw [hslice]
        push_cast
        omega
      · intro h
        exact Option.noConfusion h
  | some i =>
    have hiLt : i < bursts.length := hinv.curLt i hc
    have hiPos : 1 ≤ s.remaining.getD i 0 := hinv.curPos i hc
    have hiLen : i < s.remaining.length := by rw [hinv.rlen]; exact hiLt
    have hlink := hinv.link i hc
    have hacci := hinv.acc i hiLt
    have hnotin : i ∉ s.ready := hinv.curNotInReady i hc
    have hcsne : ∀ j, j ≠ i → curSlice s j = 0 := by
      intro j hj
      simp only [curSlice, hc]
      rw [if_neg (fun h => hj h.symm)]
    have hcsi : curSlice s i = (s.timeSlice : Int) := by
      simp [curSlice, hc]
    have hsegstart : (s.timer : Int) - ((s.timeSlice + 1 : Nat) : Int) + 1 =
        ganttEndFrom 1 s.gantt := by
      push_cast
      omega
    have haccall := acc_after_close bursts s i hinv hc hiLen
    by_cases h0 : s.remaining.getD i 0 - 1 = 0
    · cases hr : s.ready with
      | nil =>
        rw [tick_finish_nil s i hc h0 hr]
        refine { rlen := ?_, acc := ?_, readyLt := ?_, readyPos := ?_, curLt := ?_,
                 curPos := ?_, nonneg := ?_, slice0 := ?_, nodupReady := ?_,
                 curNotInReady := ?_, chain := ?_, link := ?_, idleLink := ?_ }
        · rw [List.length_set]; exact hinv.rlen
        · intro k hk
          rw [curSlice_of_zero _ k rfl]
          show (ganttSumL (s.gantt ++ [⟨i, (s.timer : Int) - ((s.timeSlice + 1 : Nat) : Int) + 1, s.timeSlice + 1⟩]) k : Int) + 0 + (s.remaining.set i (s.remaining.getD i 0 - 1)).getD k 0 = bursts.getD k 0
          have := haccall k hk
          omega
        · intro k hk
          have hk2 : k ∈ s.ready := hk
          rw [hr] at hk2
          exact absurd hk2 (List.not_mem_nil k)
        · intro k hk
          have hk2 : k ∈ s.ready := hk
          rw [hr] at hk2
          exact absurd hk2 (List.not_mem_nil k)
        · intro k h
          exact Option.noConfusion h
        · intro k h
          exact Option.noConfusion h
        · intro k hk
          by_cases hki : k = i
          · subst hki
            rw [getD_set_self _ _ _ _ hiLen]
            omega
          · rw [getD_set_ne _ _ _ _ _ (fun h => hki h.symm)]
            exact hinv.nonneg k hk
        · intro _
          rfl
        · exact hinv.nodupReady
        · intro k h
          exact Option.noConfusion h
        · exact ganttChain_append _ _ _ hinv.chain hsegstart
        · intro k h
          exact Option.noConfusion h
        · intro _ hne
          exact absurd hr hne
      | cons j rest =>
        rw [tick_finish_cons s i j rest hc h0 hr]
        have hjmem : j ∈ s.ready := by rw [hr]; exact List.mem_cons_self j rest
        have hnd : (j :: rest).Nodup := hr ▸ hinv.nodupReady
        have hji : j ≠ i := fun h => hnotin (h ▸ hjmem)
        refine { rlen := ?_, acc := ?_, readyLt := ?_, readyPos := ?_, curLt := ?_,
                 curPos := ?_, nonneg := ?_, slice0 := ?_, nodupReady := ?_,
                 curNotInReady := ?_, chain := ?_, link := ?_, idleLink := ?_ }
        · rw [List.length_set]; exact hinv.rlen
        · intro k hk
          rw [curSlice_of_zero _ k rfl]
          show (ganttSumL (s.gantt ++ [⟨i, (s.timer : Int) - ((s.timeSlice + 1 : Nat) : Int) + 1, s.timeSlice + 1⟩]) k : Int) + 0 + (s.remaining.set i (s.remaining.getD i 0 - 1)).getD k 0 = bursts.getD k 0
          have := haccall k hk
          omega
        · intro k hk
          exact hinv.readyLt k (by rw [hr]; exact List.mem_cons_of_mem j hk)
        · intro k hk
          have hkmem : k ∈ s.ready := by rw [hr]; exact List.mem_cons_of_mem j hk
          have hki : k ≠ i := fun h => hnotin (h ▸ hkmem)
          rw [getD_set_ne _ _ _ _ _ (fun h => hki h.symm)]
          exact hinv.readyPos k hkmem
        · intro k h
          injection h with h3
          exact h3 ▸ hinv.readyLt j hjmem
        · intro k h
          injection h with h3
          subst h3
          rw [getD_set_ne _ _ _ _ _ (fun h => hji h.symm)]
          exact hinv.readyPos j hjmem
        · intro k hk
          by_cases hki : k = i
          · subst hki
            rw [getD_set_self _ _ _ _ hiLen]
            omega
          · rw [getD_set_ne _ _ _ _ _ (fun h => hki h.symm)]
            exact hinv.nonneg k hk
        · intro h
          exact Option.noConfusion h
        · exact (List.nodup_cons.mp hnd).2
        · intro k h
          injection h with h3
          exact h3 ▸ (List.nodup_cons.mp hnd).1
        · exact ganttChain_append _ _ _ hinv.chain hsegstart
        · intro k h
          rw [ganttEndFrom_append]
          push_cast
          omega
        · intro h
          exact Option.noConfusion h
    · by_cases hq : s.timeSlice + 1 = quantum
      · cases hr : s.ready with
        | nil =>
          rw [tick_quantum_nil s i hc h0 hq hr]
          refine { rlen := ?_, acc := ?_, readyLt := ?_, readyPos := ?_, curLt := ?_,
                   curPos := ?_, nonneg := ?_, slice0 := ?_, nodupReady := ?_,
                   curNotInReady := ?_, chain := ?_, link := ?_, idleLink := ?_ }
          · rw [List.length_set]; exact hinv.rlen
          · intro k hk
            rw [curSlice_of_zero _ k rfl]
            show (ganttSumL (s.gantt ++ [⟨i, (s.timer : Int) - ((s.timeSlice + 1 : Nat) : Int) + 1, s.timeSlice + 1⟩]) k : Int) + 0 + (s.remaining.set i (s.remaining.getD i 0 - 1)).getD k 0 = bursts.getD k 0
            have := haccall k hk
            omega
          · intro k hk
            exact absurd hk (List.not_mem_nil k)
          · intro k hk
            exact absurd hk (List.not_mem_nil k)
          · intro k h
            injection h with h3
            exact h3 ▸ hiLt
          · intro k h
            injection h with h3
            subst h3
            rw [getD_set_self _ _ _ _ hiLen]
            omega
          · intro k hk
            by_cases hki : k = i
            · subst hki
              rw [getD_set_self _ _ _ _ hiLen]
              omega
            · rw [getD_set_ne _ _ _ _ _ (fun h => hki h.symm)]
              exact hinv.nonneg k hk
          · intro h
            exact Option.noConfusion h
          · exact List.nodup_nil
          · intro k h
            exact List.not_mem_nil k
          · exact ganttChain_append _ _ _ hinv.chain hsegstart
          · intro k h
            rw [ganttEndFrom_append]
            push_cast
            omega
          · intro h
            exact Option.noConfusion h
        | cons j rest =>
          rw [tick_quantum_cons s i j rest hc h0 hq hr]
          have hjmem : j ∈ s.ready := by rw [hr]; exact List.mem_cons_self j rest
          have hnd : (j :: rest).Nodup := hr ▸ hinv.nodupReady
          have hji : j ≠ i := fun h => hnotin (h ▸ hjmem)
          have hinotin : i ∉ rest := fun h => hnotin (by rw [hr]; exact List.mem_cons_of_mem j h)
          refine { rlen := ?_, acc := ?_, readyLt := ?_, readyPos := ?_, curLt := ?_,
                   curPos := ?_, nonneg := ?_, slice0 := ?_, nodupReady := ?_,
                   curNotInReady := ?_, chain := ?_, link := ?_, idleLink := ?_ }
          · rw [List.length_set]; exact hinv.rlen
          · intro k hk
            rw [curSlice_of_zero _ k rfl]
            show (ganttSumL (s.gantt ++ [⟨i, (s.timer : Int) - ((s.timeSlice + 1 : Nat) : Int) + 1, s.timeSlice + 1⟩]) k : Int) + 0 + (s.remaining.set i (s.remaining.getD i 0 - 1)).getD k 0 = bursts.getD k 0
            have := haccall k hk
            omega
          · intro k hk
            have hk2 : k ∈ rest ++ [i] := hk
            rcases List.mem_append.mp hk2 with hk1 | hk3
            · exact hinv.readyLt k (by rw [hr]; exact List.mem_cons_of_mem j hk1)
            · have hki : k = i := by simpa using hk3
              exact hki ▸ hiLt
          · intro k hk
            have hk2 : k ∈ rest ++ [i] := hk
            rcases List.mem_append.mp hk2 with hk1 | hk3
            · have hkmem : k ∈ s.ready := by rw [hr]; exact List.mem_cons_of_mem j hk1
              have hki : k ≠ i := fun h => hnotin (h ▸ hkmem)
              rw [getD_set_ne _ _ _ _ _ (fun h => hki h.symm)]
              exact hinv.readyPos k hkmem
            · have hki : k = i := by simpa using hk3
              subst hki
              rw [getD_set_self _ _ _ _ hiLen]
              omega
          · intro k h
            injection h with h3
            exact h3 ▸ hinv.readyLt j hjmem
          · intro k h
            injection h with h3
            subst h3
            rw [getD_set_ne _ _ _ _ _ (fun h => hji h.symm)]
            exact hinv.readyPos j hjmem
          · intro k hk
            by_cases hki : k = i
            · subst hki
              rw [getD_set_self _ _ _ _ hiLen]
              omega
            · rw [getD_set_ne _ _ _ _ _ (fun h => hki h.symm)]
              exact hinv.nonneg k hk
          · intro h
            exact Option.noConfusion h
          · rw [List.nodup_append]
            refine ⟨(List.nodup_cons.mp hnd).2, List.nodup_singleton i, ?_⟩
            intro a ha hb
            simp at hb
            subst hb
            exact hinotin ha
          · intro k h
            injection h with h3
            subst h3
            rw [List.mem_append]
            rintro (hk1 | hk2)
            · exact (List.nodup_cons.mp hnd).1 hk1
            · simp at hk2
              exact hji hk2
          · exact ganttChain_append _ _ _ hinv.chain hsegstart
          · intro k h
            rw [ganttEndFrom_append]
            push_cast
            omega
          · intro h
            exact Option.noConfusion h
      · rw [tick_run s i hc h0 hq]
        refine { rlen := ?_, acc := ?_, readyLt := ?_, readyPos := ?_, curLt := ?_,
                 curPos := ?_, nonneg := ?_, slice0 := ?_, nodupReady := ?_,
                 curNotInReady := ?_, chain := ?_, link := ?_, idleLink := ?_ }
        · rw [List.length_set]; exact hinv.rlen
        · intro k hk
          simp only [curSlice, hc]
          by_cases hki : k = i
          · subst hki
            rw [if_pos rfl]
            show (ganttSumL s.gantt k : Int) + ((s.timeSlice + 1 : Nat) : Int) + (s.remaining.set k (s.remaining.getD k 0 - 1)).getD k 0 = bursts.getD k 0
            rw [getD_set_self _ _ _ _ hiLen]
            rw [hcsi] at hacci
            unfold ganttSum at hacci
            push_cast
            omega
          · rw [if_neg (fun h => hki h.symm)]
            show (ganttSumL s.gantt k : Int) + 0 + (s.remaining.set i (s.remaining.getD i 0 - 1)).getD k 0 = bursts.getD k 0
            rw [getD_set_ne _ _ _ _ _ (fun h => hki h.symm)]
            have ha := hinv.acc k hk
            rw [hcsne k hki] at ha
            unfold ganttSum at ha
            exact ha
        · intro k hk
          exact hinv.readyLt k hk
        · intro k hk
          have hk2 : k ∈ s.ready := hk
          have hki : k ≠ i := fun h => hnotin (h ▸ hk2)
          rw [getD_set_ne _ _ _ _ _ (fun h => hki h.symm)]
          exact hinv.readyPos k hk2
        · intro k h
          have h2 : s.current = some k := h
          rw [hc] at h2
          injection h2 with h3
          exact h3 ▸ hiLt
        · intro k h
          have h2 : s.current = some k := h
          rw [hc] at h2
          injection h2 with h3
          subst h3
          rw [getD_set_self _ _ _ _ hiLen]
          omega
        · intro k hk
          by_cases hki : k = i
          · subst hki
            rw [getD_set_self _ _ _ _ hiLen]
            omega
          · rw [getD_set_ne _ _ _ _ _ (fun h => hki h.symm)]
            exact hinv.nonneg k hk
        · intro h
          have h2 : s.current = none := h
          rw [hc] at h2
          exact Option.noConfusion h2
        · exact hinv.nodupReady
        · intro k h
          have h2 : s.current = some k := h
          rw [hc] at h2
          injection h2 with h3
          exact h3 ▸ hnotin
        · exact hinv.chain
        · intro k h
          push_cast
          omega
        · intro h
          have h2 : s.current = none := h
          rw [hc] at h2
          exact Option.noConfusion h2

theorem getD_mem_of_lt {α : Type} :
    ∀ (l : List α) (i : Nat) (d : α), i < l.length → l.getD i d ∈ l := by
  intro l
  induction l with
  | nil => intro i d h; simp at h
  | cons b t ih =>
    intro i d h
    cases i with
    | zero => exact List.mem_cons_self b t
    | succ i => exact List.mem_cons_of_mem b (ih i d (by simpa using h))

theorem curSlice_nonneg (s : SchedState) (i : Nat) : 0 ≤ curSlice s i := by
  unfold curSlice
  cases s.current with
  | none => exact le_refl 0
  | some j =>
    show 0 ≤ if j = i then (s.timeSlice : Int) else 0
    by_cases h : j = i
    · rw [if_pos h]
      exact Int.natCast_nonneg _
    · rw [if_neg h]

theorem schedHalted_spec (s : SchedState) (h : schedHalted s) :
    (∀ r ∈ s.remaining, r ≤ 0) ∧ s.ready = [] ∧ s.current = none := by
  unfold schedHalted schedContinueB at h
  simp only [Bool.or_eq_false_iff, Bool.not_eq_false', List.any_eq_false,
    List.isEmpty_iff, Option.isNone_iff_eq_none, decide_eq_true_eq] at h
  obtain ⟨⟨h1, h2⟩, h3⟩ := h
  exact ⟨fun r hr => by have := h1 r hr; omega, h2, h3⟩

theorem initSched_SInv (bursts : List Int) (hb : ∀ b ∈ bursts, 1 ≤ b) :
    SInv bursts (initSched bursts) := by
  refine { rlen := rfl, acc := ?_, readyLt := ?_, readyPos := ?_, curLt := ?_, curPos := ?_,
           nonneg := ?_, slice0 := fun _ => rfl, nodupReady := ?_, curNotInReady := ?_,
           chain := trivial, link := ?_, idleLink := ?_ }
  · intro i _
    show (ganttSumL [] i : Int) + curSlice (initSched bursts) i + bursts.getD i 0 = bursts.getD i 0
    simp [ganttSumL, curSlice, initSched]
  · intro i hi
    exact List.mem_range.mp hi
  · intro i hi
    exact hb _ (getD_mem_of_lt bursts i 0 (List.mem_range.mp hi))
  · intro i h
    exact Option.noConfusion h
  · intro i h
    exact Option.noConfusion h
  · intro i hi
    show 0 ≤ bursts.getD i 0
    have := hb _ (getD_mem_of_lt bursts i 0 hi)
    omega
  · exact List.nodup_range _
  · intro i h
    exact Option.noConfusion h
  · intro i h
    exact Option.noConfusion h
  · intro _ _
    show ((0 : Nat) : Int) + 1 = 1
    simp

theorem iterN_tick_SInv (bursts : List Int) (hb : ∀ b ∈ bursts, 1 ≤ b) (k : Nat) :
    SInv bursts (iterN tick k (initSched bursts)) := by
  induction k with
  | zero => exact initSched_SInv bursts hb
  | succ k ih =>
    rw [iterN_succ]
    exact tick_SInv bursts _ ih

/-! ### Claim theorems: Round-Robin scheduler -/

/-- C2 counterexample: on bursts `[3, 5]` with quantum 2 the run does not
begin with the segment `(P0, start 0, duration 2)` and the halt condition
first holds with the timer at 9, not 8: the first segment is
`(P0, start 1, duration 2)` because the dispatch tick already advances the
timer before any decrement. -/
theorem c2_counterexample :
    (iterN tick 9 (initSched [3, 5])).gantt.head? = some ⟨0, 1, 2⟩ ∧
    (some (⟨0, 1, 2⟩ : Segment) ≠ some ⟨0, 0, 2⟩) ∧
    (∀ k, k < 9 → ¬ schedHalted (iterN tick k (initSched [3, 5]))) ∧
    schedHalted (iterN tick 9 (initSched [3, 5])) ∧
    (iterN tick 9 (initSched [3, 5])).timer ≠ 8 := by
  decide

/-- C2 (amended): running the tick loop on two processes with bursts
`[3, 5]`, quantum 2, timer 0, empty CPU and ready queue `[P0, P1]`
produces exactly the Gantt sequence `(P0,1,2), (P1,3,2), (P0,5,1),
(P1,6,2), (P1,8,1)`; P0 segments sum to 3, P1 segments to 5, and the
halt condition first holds after tick 9 with the timer equal to 9. -/
theorem c2_worked_example :
    (iterN tick 9 (initSched [3, 5])).gantt =
      [⟨0, 1, 2⟩, ⟨1, 3, 2⟩, ⟨0, 5, 1⟩, ⟨1, 6, 2⟩, ⟨1, 8, 1⟩] ∧
    ganttSum (iterN tick 9 (initSched [3, 5])) 0 = 3 ∧
    ganttSum (iterN tick 9 (initSched [3, 5])) 1 = 5 ∧
    (∀ k, k < 9 → ¬ schedHalted (iterN tick k (initSched [3, 5]))) ∧
    schedHalted (iterN tick 9 (initSched [3, 5])) ∧
    (iterN tick 9 (initSched [3, 5])).timer = 9 := by
  decide

/-- C5: in every run of the scheduler from positive bursts, every
process's remaining time stays between 0 and its original burst at every
tick boundary, and once the halt condition holds the Gantt segment
durations of every process sum to exactly its original burst. -/
theorem c5_rr_conservation (bursts : List Int) (hb : ∀ b ∈ bursts, 1 ≤ b) (k : Nat) :
    (∀ i, i < bursts.length →
      0 ≤ (iterN tick k (initSched bursts)).remaining.getD i 0 ∧
        (iterN tick k (initSched bursts)).remaining.getD i 0 ≤ bursts.getD i 0) ∧
    (schedHalted (iterN tick k (initSched bursts)) → ∀ i, i < bursts.length →
      ((ganttSum (iterN tick k (initSched bursts)) i : Int) = bursts.getD i 0)) := by
  have hinv := iterN_tick_SInv bursts hb k
  constructor
  · intro i hi
    refine ⟨hinv.nonneg i hi, ?_⟩
    have ha := hinv.acc i hi
    have hg := Int.natCast_nonneg (ganttSum (iterN tick k (initSched bursts)) i)
    have hcs := curSlice_nonneg (iterN tick k (initSched bursts)) i
    omega
  · intro hh i hi
    obtain ⟨hrem, hready, hcur⟩ := schedHalted_spec _ hh
    have ha := hinv.acc i hi
    have hcs : curSlice (iterN tick k (initSched bursts)) i = 0 := by
      simp [curSlice, hcur]
    have hi2 : i < (iterN tick k (initSched bursts)).remaining.length := by
      rw [hinv.rlen]; exact hi
    have hr0 : (iterN tick k (initSched bursts)).remaining.getD i 0 ≤ 0 :=
      hrem _ (getD_mem_of_lt _ _ _ hi2)
    have hr1 := hinv.nonneg i hi
    omega

/-- C5 witness: the conservation statement instantiated on the concrete
completed run with bursts `[3, 5]` after 9 ticks. -/
theorem c5_rr_conservation_witness :
    (∀ b ∈ ([3, 5] : List Int), 1 ≤ b) ∧
    ((∀ i, i < ([3, 5] : List Int).length →
      0 ≤ (iterN tick 9 (initSched [3, 5])).remaining.getD i 0 ∧
        (iterN tick 9 (initSched [3, 5])).remaining.getD i 0 ≤ ([3, 5] : List Int).getD i 0) ∧
    (schedHalted (iterN tick 9 (initSched [3, 5])) → ∀ i, i < ([3, 5] : List Int).length →
      ((ganttSum (iterN tick 9 (initSched [3, 5])) i : Int) = ([3, 5] : List Int).getD i 0))) :=
  ⟨by decide, c5_rr_conservation [3, 5] (by decide) 9⟩

/-- C9 counterexample: in the completed run on bursts `[1, 1]` the Gantt
segments are `(P0,1,1), (P1,2,1)`: the second segment starts exactly
where the first ends, so segments are contiguous, refuting the claim that
every later segment starts at least one tick after its predecessor ends. -/
theorem c9_counterexample :
    schedHalted (iterN tick 3 (initSched [1, 1])) ∧
    (iterN tick 3 (initSched [1, 1])).gantt = [⟨0, 1, 1⟩, ⟨1, 2, 1⟩] ∧
    ¬ SegsGapped (iterN tick 3 (initSched [1, 1])).gantt := by
  decide

/-- C9 (amended): a tick entered with an empty CPU dequeues the head of
the ready queue, performs no remaining-time decrement, and still advances
the timer; consequently the first Gantt segment starts at tick 1 and
every later segment starts exactly where its predecessor ends (the
segments are exactly contiguous, never gapped). -/
theorem c9_dispatch_and_contiguity (bursts : List Int) (hb : ∀ b ∈ bursts, 1 ≤ b) (k : Nat) :
    GanttChain 1 (iterN tick k (initSched bursts)).gantt ∧
    (∀ s : SchedState, s.current = none →
      (tick s).remaining = s.remaining ∧ (tick s).timer = s.timer + 1) ∧
    (∀ (s : SchedState) (j : Nat) (rest : List Nat), s.current = none → s.ready = j :: rest →
      (tick s).current = some j ∧ (tick s).ready = rest) := by
  refine ⟨(iterN_tick_SInv bursts hb k).chain, ?_, ?_⟩
  · intro s hc
    cases hr : s.ready with
    | nil =>
      rw [tick_idle s hc hr]
      exact ⟨rfl, rfl⟩
    | cons j rest =>
      rw [tick_dispatch s j rest hc hr]
      exact ⟨rfl, rfl⟩
  · intro s j rest hc hr
    rw [tick_dispatch s j rest hc hr]
    exact ⟨rfl, rfl⟩

/-- C9 witness: the amended statement instantiated on the concrete run
with bursts `[1, 1]` after 3 ticks. -/
theorem c9_dispatch_and_contiguity_witness :
    (∀ b ∈ ([1, 1] : List Int), 1 ≤ b) ∧
    (GanttChain 1 (iterN tick 3 (initSched [1, 1])).gantt ∧
    (∀ s : SchedState, s.current = none →
      (tick s).remaining = s.remaining ∧ (tick s).timer = s.timer + 1) ∧
    (∀ (s : SchedState) (j : Nat) (rest : List Nat), s.current = none → s.ready = j :: rest →
      (tick s).current = some j ∧ (tick s).ready = rest)) :=
  ⟨by decide, c9_dispatch_and_contiguity [1, 1] (by decide) 3⟩

/-! ### Banker lemmas -/

theorem bankersPred_eq_true (need : List Nat) (work : Nat) (finish : List Bool) (i : Nat) :
    bankersPred need work finish i = true ↔ Qual need work finish i := by
  unfold bankersPred Qual
  simp [Bool.and_eq_true, Bool.not_eq_true']

theorem findFirstIdx_some (n : Nat) (need : List Nat) (work : Nat) (finish : List Bool) (i : Nat)
    (h : findFirstIdx n need work finish = some i) :
    Qual need work finish i ∧ i < n ∧ ∀ j, j < i → ¬ Qual need work finish j := by
  obtain ⟨h1, h2, h3⟩ := find?_range_spec _ n i h
  refine ⟨(bankersPred_eq_true _ _ _ _).mp h1, h2, fun j hj hq => ?_⟩
  have hf := h3 j hj
  have ht := (bankersPred_eq_true need work finish j).mpr hq
  rw [hf] at ht
  exact Bool.noConfusion ht

theorem findFirstIdx_none (n : Nat) (need : List Nat) (work : Nat) (finish : List Bool)
    (h : findFirstIdx n need work finish = none) :
    ∀ j, j < n → ¬ Qual need work finish j := by
  intro j hj hq
  have hmem := List.find?_eq_none.mp h j (List.mem_range.mpr hj)
  exact hmem ((bankersPred_eq_true need work finish j).mpr hq)

theorem commitStep_BInv (n : Nat) (alloc : List Nat) (st : BAlg) (i : Nat)
    (hinv : BInv n st) (hi : i < n) (hf : st.finish.getD i true = false) :
    BInv n (commitStep alloc st i) := by
  have hiLen : i < st.finish.length := by rw [hinv.flen]; exact hi
  have hcount := count_set_true st.finish i hiLen hf
  refine { flen := ?_, seqLt := ?_, seqFin := ?_, nodup := ?_, countTrue := ?_ }
  · show (st.finish.set i true).length = n
    rw [List.length_set]
    exact hinv.flen
  · intro j hj
    have hj2 : j ∈ st.safeSeq ++ [i] := hj
    rcases List.mem_append.mp hj2 with hj1 | hj3
    · exact hinv.seqLt j hj1
    · have hji : j = i := by simpa using hj3
      exact hji ▸ hi
  · intro j hj
    have hj2 : j ∈ st.safeSeq ++ [i] := hj
    show (st.finish.set i true).getD j true = true
    rcases List.mem_append.mp hj2 with hj1 | hj3
    · by_cases hji : j = i
      · subst hji
        exact getD_set_self _ _ _ _ hiLen
      · rw [getD_set_ne _ _ _ _ _ (fun h => hji h.symm)]
        exact hinv.seqFin j hj1
    · have hji : j = i := by simpa using hj3
      subst hji
      exact getD_set_self _ _ _ _ hiLen
  · show (st.safeSeq ++ [i]).Nodup
    rw [List.nodup_append]
    refine ⟨hinv.nodup, List.nodup_singleton i, ?_⟩
    intro a ha hb
    simp at hb
    subst hb
    have hfin := hinv.seqFin a ha
    rw [hf] at hfin
    exact Bool.noConfusion hfin
  · show (st.finish.set i true).count true = (st.safeSeq ++ [i]).length
    rw [hcount.2, List.length_append, hinv.countTrue]
    simp

theorem loopFuel_total (n : Nat) (need alloc : List Nat) :
    ∀ (m : Nat) (st : BAlg), BInv n st → st.finish.count false = m →
      ∃ r, loopFuel n need alloc (m + 1) st = some r ∧ r.2 ≤ m ∧
        r.1 ≠ BOutcome.stalled ∧
        ∀ seq, r.1 = BOutcome.safe seq → seq.length = n ∧ ∀ i, i < n → i ∈ seq := by
  intro m
  induction m with
  | zero =>
    intro st hinv hm
    have hnotmem : false ∉ st.finish := List.count_eq_zero.mp hm
    have hall : ∀ b ∈ st.finish, true = b := by
      intro b hb
      cases b with
      | false => exact absurd hb hnotmem
      | true => rfl
    have hlen : st.safeSeq.length = n := by
      rw [← hinv.countTrue, List.count_eq_length.mpr hall, hinv.flen]
    refine ⟨(.safe st.safeSeq, 0), ?_, Nat.le_refl 0, by simp, ?_⟩
    · show loopFuel n need alloc 1 st = some (.safe st.safeSeq, 0)
      unfold loopFuel
      rw [if_pos hlen]
    · intro seq hseq
      have hseq2 : st.safeSeq = seq := by
        injection hseq
      exact ⟨hseq2 ▸ hlen,
        fun i hi => hseq2 ▸ mem_of_nodup_lt_length hinv.nodup hinv.seqLt hlen i hi⟩
  | succ m ih =>
    intro st hinv hm
    by_cases hlen : st.safeSeq.length = n
    · refine ⟨(.safe st.safeSeq, 0), ?_, Nat.zero_le _, by simp, ?_⟩
      · show loopFuel n need alloc (m + 1 + 1) st = some (.safe st.safeSeq, 0)
        unfold loopFuel
        rw [if_pos hlen]
      · intro seq hseq
        have hseq2 : st.safeSeq = seq := by
          injection hseq
        exact ⟨hseq2 ▸ hlen,
          fun i hi => hseq2 ▸ mem_of_nodup_lt_length hinv.nodup hinv.seqLt hlen i hi⟩
    · cases hfind : findFirstIdx n need st.work st.finish with
      | some i =>
        obtain ⟨hq, hiLt, _⟩ := findFirstIdx_some n need st.work st.finish i hfind
        have hiLen : i < st.finish.length := by rw [hinv.flen]; exact hiLt
        have hinv2 := commitStep_BInv n alloc st i hinv hiLt hq.1
        have hm2 : (commitStep alloc st i).finish.count false = m := by
          have hcount := (count_set_true st.finish i hiLen hq.1).1
          show (st.finish.set i true).count false = m
          omega
        obtain ⟨r, hr, hr2, hr3, hr4⟩ := ih (commitStep alloc st i) hinv2 hm2
        refine ⟨(r.1, r.2 + 1), ?_, by omega, hr3, hr4⟩
        show loopFuel n need alloc (m + 1 + 1) st = some (r.1, r.2 + 1)
        unfold loopFuel
        rw [if_neg hlen, hfind]
        show Option.map (fun r => (r.1, r.2 + 1))
          (loopFuel n need alloc (m + 1) (commitStep alloc st i)) = some (r.1, r.2 + 1)
        rw [hr]
        rfl
      | none =>
        have hnall : ¬ (st.finish.all (fun b => b) = true) := by
          intro hallt
          have h0 : false ∉ st.finish := by
            intro hmem
            exact Bool.noConfusion (List.all_eq_true.mp hallt false hmem)
          have := List.count_eq_zero.mpr h0
          omega
        refine ⟨(.notSafe, 0), ?_, Nat.zero_le _, by simp, ?_⟩
        · show loopFuel n need alloc (m + 1 + 1) st = some (.notSafe, 0)
          unfold loopFuel
          rw [if_neg hlen, hfind]
          show (if (st.finish.all fun b => b) = true then some (BOutcome.stalled, 0)
            else some (BOutcome.notSafe, 0)) = some (BOutcome.notSafe, 0)
          rw [if_neg hnall]
        · intro seq hseq
          exact BOutcome.noConfusion hseq

/-! ### Claim theorems: Banker algorithm -/

/-- C4: from every initial Banker state (any number of processes, any
non-negative need/allocation/available values) the unpaused safety loop
terminates within fuel n+1, performs at most n commit steps, and returns
exactly one outcome: SAFE with a sequence of length n containing every
process index, or UNSAFE — never the silent stalled fall-through. -/
theorem c4_bankers_termination (n : Nat) (need alloc : List Nat) (work : Nat)
    (hne : need.length = n) (hal : alloc.length = n) :
    ∃ r, loopFuel n need alloc (n + 1) (bankersInitAlg n work) = some r ∧
      r.2 ≤ n ∧
      ((∃ seq, r.1 = BOutcome.safe seq ∧ seq.length = n ∧ ∀ i, i < n → i ∈ seq) ∨
        r.1 = BOutcome.notSafe) ∧
      r.1 ≠ BOutcome.stalled := by
  have _ := hne
  have _ := hal
  have hinv : BInv n (bankersInitAlg n work) := by
    refine { flen := ?_, seqLt := ?_, seqFin := ?_, nodup := List.nodup_nil, countTrue := ?_ }
    · exact List.length_replicate n false
    · intro i h
      exact absurd h (List.not_mem_nil i)
    · intro i h
      exact absurd h (List.not_mem_nil i)
    · show (List.replicate n false).count true = ([] : List Nat).length
      rw [List.count_eq_zero.mpr]
      · rfl
      · intro hmem
        exact Bool.noConfusion (List.eq_of_mem_replicate hmem)
  have hm : (bankersInitAlg n work).finish.count false = n := by
    show (List.replicate n false).count false = n
    exact List.count_replicate_self false n
  obtain ⟨r, hr, h2, h3, h4⟩ := loopFuel_total n need alloc n (bankersInitAlg n work) hinv hm
  refine ⟨r, hr, h2, ?_, h3⟩
  cases hro : r.1 with
  | safe seq => exact Or.inl ⟨seq, rfl, h4 seq hro⟩
  | notSafe => exact Or.inr rfl
  | stalled => exact absurd hro h3

/-- C4 witness: the termination statement instantiated on the concrete
two-process state available=10, allocation=[2,3], need=[4,2], which runs
to SAFE with sequence [0, 1]. -/
theorem c4_bankers_termination_witness :
    ([4, 2] : List Nat).length = 2 ∧ ([2, 3] : List Nat).length = 2 ∧
    (∃ r, loopFuel 2 [4, 2] [2, 3] (2 + 1) (bankersInitAlg 2 10) = some r ∧
      r.2 ≤ 2 ∧
      ((∃ seq, r.1 = BOutcome.safe seq ∧ seq.length = 2 ∧ ∀ i, i < 2 → i ∈ seq) ∨
        r.1 = BOutcome.notSafe) ∧
      r.1 ≠ BOutcome.stalled) :=
  ⟨rfl, rfl, c4_bankers_termination 2 [4, 2] [2, 3] 10 rfl rfl⟩

/-- C3: the scan of `iterator` selects exactly the least index with
`finish[i]` false and `need[i] <= work` (lowest index wins when several
qualify); the found case emits only the checking highlight and schedules
`execute_process i` separately, leaving the algorithm state untouched;
and the exec callback is what sets `work += allocation[i]`,
`finish[i] := true` and appends `i` to the safe sequence, emitting the
finished snapshot and scheduling the next scan. -/
theorem c3_scan_and_two_phase (n : Nat) (need alloc : List Nat) :
    (∀ (work : Nat) (finish : List Bool) (i : Nat),
      findFirstIdx n need work finish = some i →
        finish.getD i true = false ∧ need.getD i 0 ≤ work ∧
        ∀ j, j < i → ¬ (finish.getD j true = false ∧ need.getD j 0 ≤ work)) ∧
    (∀ (work : Nat) (finish : List Bool) (j : Nat), j < n →
      finish.getD j true = false → need.getD j 0 ≤ work →
        ∃ i, findFirstIdx n need work finish = some i ∧ i ≤ j) ∧
    (∀ (c : BCfg) (i : Nat), ¬ (c.alg.safeSeq.length = n) →
      findFirstIdx n need c.alg.work c.alg.finish = some i →
        bankersRunJob n need alloc c .iter =
          { c with emitted := c.emitted ++ [.checking i],
                   pending := c.pending ++ [.exec i] }) ∧
    (∀ (c : BCfg) (i : Nat),
      bankersRunJob n need alloc c (.exec i) =
        { c with alg := { work := c.alg.work + alloc.getD i 0,
                          finish := c.alg.finish.set i true,
                          safeSeq := c.alg.safeSeq ++ [i] },
                 emitted := c.emitted ++ [.finishedSnap i],
                 pending := c.pending ++ [.iter] }) := by
  refine ⟨?_, ?_, ?_, ?_⟩
  · intro work finish i h
    obtain ⟨hq, _, hmin⟩ := findFirstIdx_some n need work finish i h
    exact ⟨hq.1, hq.2, fun j hj => hmin j hj⟩
  · intro work finish j hj hf hw
    cases hfind : findFirstIdx n need work finish with
    | some i =>
      refine ⟨i, rfl, ?_⟩
      obtain ⟨_, _, hmin⟩ := findFirstIdx_some n need work finish i hfind
      by_contra hcon
      exact hmin j (by omega) ⟨hf, hw⟩
    | none =>
      exact absurd ⟨hf, hw⟩ (findFirstIdx_none n need work finish hfind j hj)
  · intro c i hlen hfind
    show (if c.alg.safeSeq.length = n then _ else _) = _
    rw [if_neg hlen, hfind]
  · intro c i
    rfl

/-- C3 witness: the scan and two-phase statement applied to the
one-process state need=[0], work=0, finish=[false], where index 0 is
selected. -/
theorem c3_scan_and_two_phase_witness :
    (findFirstIdx 1 [0] 0 [false] = some 0) ∧
    (([false] : List Bool).getD 0 true = false ∧ ([0] : List Nat).getD 0 0 ≤ 0 ∧
      ∀ j, j < 0 → ¬ (([false] : List Bool).getD j true = false ∧
        ([0] : List Nat).getD j 0 ≤ 0)) :=
  ⟨by decide, (c3_scan_and_two_phase 1 [0] [0]).1 0 [false] 0 (by decide)⟩

/-! ### Claim theorems: pause/resume (C1) and insufficient data (C8) -/

/-- C1 counterexample: in the Banker view, pause after the checking
snapshot for process 0 has been emitted, let the pending
`execute_process` callback fire as a flag-guarded no-op, then resume:
`toggle_pause` re-invokes `iterator`, which re-emits the checking
snapshot, so the snapshot sequence is `[checking 0, checking 0]` — a step
repeated — while the unpaused run emits `checking 0` exactly once,
followed by `finished 0` and the SAFE report. -/
theorem c1_counterexample :
    (bankersRunActs 1 [0] [0] (bankersStart 1 [0] [0] 0) [.toggle, .fire, .toggle]).emitted =
      [.checking 0, .checking 0] ∧
    (bankersRunActs 1 [0] [0] (bankersStart 1 [0] [0] 0) [.fire, .fire, .fire]).emitted =
      [.checking 0, .finishedSnap 0, .safeSnap [0]] ∧
    List.count (BSnap.checking 0) [BSnap.checking 0, BSnap.checking 0] = 2 ∧
    List.count (BSnap.checking 0)
      [BSnap.checking 0, BSnap.finishedSnap 0, BSnap.safeSnap [0]] = 1 := by
  decide

/-- C1 (amended): for the deadlock and scheduling engines, under every
interleaving of pauses, resumes and (possibly several) pending timer
firings, the committed state is always the k-th iterate of the canonical
step function and the emitted history is exactly the canonical unpaused
history — no step skipped, none repeated; resuming immediately re-invokes
the handler; and for the Banker engine, pausing after a commit and
resuming after the pending scan callback has fired yields exactly the
configuration of the never-paused run. -/
theorem c1_pause_resume_exactness :
    (∀ (scriptLen : Nat) (c : PCfg Nat), PReach (stepD scriptLen) 0 c →
      PInvariant (nextD scriptLen) 0 c) ∧
    (∀ (bursts : List Int) (c : PCfg SchedState), PReach stepS (initSched bursts) c →
      PInvariant tick (initSched bursts) c) ∧
    (∀ (σ : Type) (stepF : σ → Option (σ × Bool)) (c : PCfg σ), c.paused = true →
      pStep stepF c .toggle = pBody stepF { c with paused := false }) ∧
    (∀ (n : Nat) (need alloc : List Nat) (alg : BAlg) (e : List BSnap),
      bankersRunActs n need alloc ⟨alg, false, [.iter], e⟩ [.toggle, .fire, .toggle] =
        bankersRunActs n need alloc ⟨alg, false, [.iter], e⟩ [.fire]) := by
  refine ⟨?_, ?_, ?_, ?_⟩
  · intro scriptLen c h
    exact preach_inv (stepD scriptLen) (nextD scriptLen) (stepD_compat scriptLen) 0 c h
  · intro bursts c h
    exact preach_inv stepS tick stepS_compat (initSched bursts) c h
  · intro σ stepF c h
    show (if c.paused then pBody stepF { c with paused := false }
      else { c with paused := true }) = pBody stepF { c with paused := false }
    rw [if_pos h]
  · intro n need alloc alg e
    rfl

/-- C1 witness: the exactness statement applied to the start
configurations of a 2-step deadlock script and a 1-process scheduler run,
and to a concrete paused cursor configuration. -/
theorem c1_pause_resume_exactness_witness :
    (PReach (stepD 2) 0 (pInit (stepD 2) 0) ∧ PInvariant (nextD 2) 0 (pInit (stepD 2) 0)) ∧
    (PReach stepS (initSched [1]) (pInit stepS (initSched [1])) ∧
      PInvariant tick (initSched [1]) (pInit stepS (initSched [1]))) ∧
    ((⟨1, true, 1, [1]⟩ : PCfg Nat).paused = true ∧
      pStep (stepD 2) (⟨1, true, 1, [1]⟩ : PCfg Nat) .toggle =
        pBody (stepD 2) { (⟨1, true, 1, [1]⟩ : PCfg Nat) with paused := false }) :=
  ⟨⟨PReach.init, c1_pause_resume_exactness.1 2 (pInit (stepD 2) 0) PReach.init⟩,
   ⟨PReach.init, c1_pause_resume_exactness.2.1 [1] (pInit stepS (initSched [1])) PReach.init⟩,
   ⟨rfl, c1_pause_resume_exactness.2.2.1 Nat (stepD 2) (⟨1, true, 1, [1]⟩ : PCfg Nat) rfl⟩⟩

/-- C8 counterexample: the Banker view's `run_algorithm` performs no
insufficient-data check: started with zero live processes it immediately
emits the SAFE terminal report (an algorithmic outcome), not a
"not enough processes" message. -/
theorem c8_counterexample :
    (bankersStart 0 [] [] 5).emitted = [BSnap.safeSnap []] ∧
    (bankersStart 0 [] [] 5).pending = [] := by
  decide

/-- C8 (amended): only the deadlock view guards against insufficient live
data: with fewer than two live processes its `run_simulation` surfaces the
"not enough running processes" message, re-enables Run, disables Pause,
starts no animation and schedules no steps. -/
theorem c8_insufficient_guard (live : List (String × Nat)) (openFile : Nat → Option String)
    (h : live.length < 2) :
    (deadlockRunSim live openFile).message =
      "Not enough running processes to simulate deadlock." ∧
    (deadlockRunSim live openFile).runButtonEnabled = true ∧
    (deadlockRunSim live openFile).pauseButtonEnabled = false ∧
    (deadlockRunSim live openFile).started = false ∧
    (deadlockRunSim live openFile).steps = [] := by
  unfold deadlockRunSim
  rw [if_pos h]
  exact ⟨rfl, rfl, rfl, rfl, rfl⟩

/-- C8 witness: the guard statement applied to an empty live-process
list. -/
theorem c8_insufficient_guard_witness :
    (([] : List (String × Nat)).length < 2) ∧
    ((deadlockRunSim [] (fun _ => none)).message =
      "Not enough running processes to simulate deadlock." ∧
    (deadlockRunSim [] (fun _ => none)).runButtonEnabled = true ∧
    (deadlockRunSim [] (fun _ => none)).pauseButtonEnabled = false ∧
    (deadlockRunSim [] (fun _ => none)).started = false ∧
    (deadlockRunSim [] (fun _ => none)).steps = []) :=
  ⟨by decide, c8_insufficient_guard [] (fun _ => none) (by decide)⟩

/-! ### Claim theorems: deadlock view script (C7, C10) and navigation (C6) -/

theorem dedup_length_lt_of_not_nodup {α : Type} [DecidableEq α] (l : List α)
    (h : ¬ l.Nodup) : l.dedup.length < l.length := by
  have hsub := List.dedup_sublist l
  rcases Nat.lt_or_ge l.dedup.length l.length with hlt | hge
  · exact hlt
  · exfalso
    have hlen : l.dedup.length = l.length := Nat.le_antisymm hsub.length_le hge
    have heq := hsub.eq_of_length hlen
    exact h (heq ▸ List.nodup_dedup l)

/-- C7 counterexample: with process display names `A`, `B` and resource
display names `C`, `D`, the final animation step reports the cycle
`[A, D, B, C, A]`, that is P1 → R2 → P2 → R1 → P1 — not the order
P1 → R1 → P2 → R2 → P1 asserted by the claim. -/
theorem c7_counterexample :
    (scriptFor "A" "B" "C" "D").getLast? =
      some (AnimStep.detectCycle ["A", "D", "B", "C", "A"]) ∧
    (["A", "D", "B", "C", "A"] ≠ ["A", "C", "B", "D", "A"]) := by
  constructor
  · rfl
  · decide

/-- C7 (amended): for any two sampled process names and any two resource
names, the precomputed script contains the four node-drawing steps, the
two assignment edges (R1→P1 and R2→P2), the two request edges (P1→R2 and
P2→R1), and its final step is the cycle-detection step reporting exactly
the cycle P1 → R2 → P2 → R1 → P1 over the display (truncated) names. -/
theorem c7_rag_script (p1n p2n r1n r2n : String) :
    AnimStep.drawProcess (truncateName p1n 12) ∈ scriptFor p1n p2n r1n r2n ∧
    AnimStep.drawProcess (truncateName p2n 12) ∈ scriptFor p1n p2n r1n r2n ∧
    AnimStep.drawResource (truncateName r1n 12) ∈ scriptFor p1n p2n r1n r2n ∧
    AnimStep.drawResource (truncateName r2n 12) ∈ scriptFor p1n p2n r1n r2n ∧
    AnimStep.drawAssignEdge (truncateName r1n 12) (truncateName p1n 12) ∈
      scriptFor p1n p2n r1n r2n ∧
    AnimStep.drawAssignEdge (truncateName r2n 12) (truncateName p2n 12) ∈
      scriptFor p1n p2n r1n r2n ∧
    AnimStep.drawRequestEdge (truncateName p1n 12) (truncateName r2n 12) ∈
      scriptFor p1n p2n r1n r2n ∧
    AnimStep.drawRequestEdge (truncateName p2n 12) (truncateName r1n 12) ∈
      scriptFor p1n p2n r1n r2n ∧
    (scriptFor p1n p2n r1n r2n).getLast? = some (AnimStep.detectCycle
      [truncateName p1n 12, truncateName r2n 12, truncateName p2n 12,
       truncateName r1n 12, truncateName p1n 12]) := by
  refine ⟨?_, ?_, ?_, ?_, ?_, ?_, ?_, ?_, rfl⟩ <;> simp [scriptFor, animationSteps]

/-- C10: the deadlock view keys its node tables by names truncated to 12
characters: when the two process names collide after truncation the
process table holds a single entry, both drawing steps resolve to the one
remaining canvas position (500, 150), and the graph has fewer than four
distinct nodes; in general the four cycle nodes are distinct exactly when
the four truncated names are pairwise distinct. -/
theorem c10_truncation_collision (p1n p2n : String)
    (h : truncateName p1n 12 = truncateName p2n 12) :
    (processesDict (truncateName p1n 12) (truncateName p2n 12)).length = 1 ∧
    pyLookup (processesDict (truncateName p1n 12) (truncateName p2n 12))
      (truncateName p1n 12) = some (500, 150) ∧
    pyLookup (processesDict (truncateName p1n 12) (truncateName p2n 12))
      (truncateName p2n 12) = some (500, 150) ∧
    (∀ r1 r2 : String,
      ([truncateName p1n 12, r1, truncateName p2n 12, r2].dedup).length < 4) ∧
    (∀ a b c d : String, [a, b, c, d].Nodup ↔
      (a ≠ b ∧ a ≠ c ∧ a ≠ d ∧ b ≠ c ∧ b ≠ d ∧ c ≠ d)) := by
  refine ⟨?_, ?_, ?_, ?_, ?_⟩
  · simp [processesDict, pyDict2, h]
  · rw [h]
    simp [processesDict, pyDict2, pyLookup]
  · rw [h]
    simp [processesDict, pyDict2, pyLookup]
  · intro r1 r2
    have hx : ¬ ([truncateName p1n 12, r1, truncateName p2n 12, r2].Nodup) := by
      rw [h]
      intro hnd
      exact (List.nodup_cons.mp hnd).1 (by simp)
    have hlt := dedup_length_lt_of_not_nodup _ hx
    simpa using hlt
  · intro a b c d
    constructor
    · intro hnd
      simp [List.nodup_cons, not_or] at hnd
      tauto
    · intro hne
      simp [List.nodup_cons, not_or]
      tauto

/-- C10 witness: two 13-character process names sharing their first 12
characters collide after truncation. -/
theorem c10_truncation_collision_witness :
    (truncateName "abcdefghijklm" 12 = truncateName "abcdefghijklX" 12) ∧
    ((processesDict (truncateName "abcdefghijklm" 12) (truncateName "abcdefghijklX" 12)).length = 1 ∧
    pyLookup (processesDict (truncateName "abcdefghijklm" 12) (truncateName "abcdefghijklX" 12))
      (truncateName "abcdefghijklm" 12) = some (500, 150) ∧
    pyLookup (processesDict (truncateName "abcdefghijklm" 12) (truncateName "abcdefghijklX" 12))
      (truncateName "abcdefghijklX" 12) = some (500, 150) ∧
    (∀ r1 r2 : String,
      ([truncateName "abcdefghijklm" 12, r1, truncateName "abcdefghijklX" 12, r2].dedup).length < 4) ∧
    (∀ a b c d : String, [a, b, c, d].Nodup ↔
      (a ≠ b ∧ a ≠ c ∧ a ≠ d ∧ b ≠ c ∧ b ≠ d ∧ c ≠ d))) :=
  ⟨by decide, c10_truncation_collision "abcdefghijklm" "abcdefghijklX" (by decide)⟩

/-- C6: `switch_view` only performs the prediction-history handoff, the
files reload, and the frame raise — it leaves every pending animation
callback of the view being left untouched, so a pending scheduler tick
still fires after navigating away and mutates the scheduling state (the
timer advances from 0 to 1), contradicting the mandated cancellation. -/
theorem c6_switch_view_no_cancellation :
    (∀ (α : Type) (a : AppState α) (viewName : String),
      (switchView a viewName).schedMach = a.schedMach) ∧
    (switchView (⟨"scheduling", ⟨initSched [3, 5], false, 1, []⟩, (), (), false⟩ : AppState Unit)
      "dashboard").schedMach.pending = 1 ∧
    (pStep stepS
      (switchView (⟨"scheduling", ⟨initSched [3, 5], false, 1, []⟩, (), (), false⟩ : AppState Unit)
        "dashboard").schedMach .fire).sim.timer = 1 ∧
    (initSched [3, 5]).timer = 0 := by
  refine ⟨?_, ?_, ?_, rfl⟩
  · intro α a viewName
    unfold switchView
    by_cases h1 : viewName = "prediction" <;> by_cases h2 : viewName = "files" <;>
      simp [h1, h2]
  · decide
  · decide

end SysGuard
